import Mathlib

/-!
Verification of the correction engine of `cargo-spellcheck`
(`src/action/mod.rs`): the position model, the streaming patch-merge
algorithm `apply_patches`, the `BandAid` → `Patch` conversion, the
`Finish::found_any` helper, and the temp-file materialization workflow
`Action::correct_file`.

Text buffers are modelled as `List Char` (Unicode scalar values); the
UTF-8 byte stream of a buffer is modelled as a `List Nat` computed by a
concrete UTF-8 encoder, so byte offsets and byte slicing behave as in
the Rust source.
-/

namespace Spellcheck

/-- A line/column position: `line` is 1-based, `column` is a 0-based
count of Unicode scalar values since the start of the line.
Mirrors `LineColumn` used by `src/action/mod.rs`. -/
structure LineColumn where
  line : Nat
  column : Nat
deriving DecidableEq, Repr

/-- Lexicographic order on `(line, column)`, the total order the
source relies on (`linecol >= cc_start` etc.). -/
def LineColumn.le (a b : LineColumn) : Prop :=
  a.line < b.line ∨ (a.line = b.line ∧ a.column ≤ b.column)

/-- Strict lexicographic order on `(line, column)`. -/
def LineColumn.lt (a b : LineColumn) : Prop :=
  a.line < b.line ∨ (a.line = b.line ∧ a.column < b.column)

instance : LE LineColumn := ⟨LineColumn.le⟩

instance : LT LineColumn := ⟨LineColumn.lt⟩

instance (a b : LineColumn) : Decidable (a ≤ b) :=
  decidable_of_iff (a.line < b.line ∨ (a.line = b.line ∧ a.column ≤ b.column)) Iff.rfl

instance (a b : LineColumn) : Decidable (a < b) :=
  decidable_of_iff (a.line < b.line ∨ (a.line = b.line ∧ a.column < b.column)) Iff.rfl

/-- An inclusive span between two positions. The Rust field `end` is a
reserved word in Lean, so it is called `stop` here. -/
structure Span where
  start : LineColumn
  stop : LineColumn
deriving DecidableEq, Repr

/-- The starting position `LineColumn { line: 1, column: 0 }`. -/
def home : LineColumn := ⟨1, 0⟩

/-- Number of bytes of the UTF-8 encoding of a scalar value, as
computed by Rust's `char::len_utf8`. -/
def utf8Len (c : Char) : Nat :=
  if c.toNat < 0x80 then 1
  else if c.toNat < 0x800 then 2
  else if c.toNat < 0x10000 then 3
  else 4

/-- The UTF-8 encoding of one scalar value, as a list of byte values. -/
def utf8Enc (c : Char) : List Nat :=
  let n := c.toNat
  if n < 0x80 then [n]
  else if n < 0x800 then [0xC0 + n / 0x40, 0x80 + n % 0x40]
  else if n < 0x10000 then
    [0xE0 + n / 0x1000, 0x80 + (n / 0x40) % 0x40, 0x80 + n % 0x40]
  else
    [0xF0 + n / 0x40000, 0x80 + (n / 0x1000) % 0x40, 0x80 + (n / 0x40) % 0x40, 0x80 + n % 0x40]

/-- UTF-8 byte length of a char list (Rust `str::len` of the buffer). -/
def byteLen (cs : List Char) : Nat := (cs.map utf8Len).sum

/-- UTF-8 byte stream of a char list (the `&str`'s bytes). -/
def strEnc (cs : List Char) : List Nat := (cs.map utf8Enc).flatten

/-- Rust byte-range slicing `&buffer[lo..hi]` on the byte stream. -/
def slice (bytes : List Nat) (lo hi : Nat) : List Nat := (bytes.take hi).drop lo

/-- The position directly after a character: column advances by one,
except that a line terminator resets the column and advances the line. -/
def nextPos (lc : LineColumn) (c : Char) : LineColumn :=
  if c = '\n' then ⟨lc.line + 1, 0⟩ else ⟨lc.line, lc.column + 1⟩

/-- Position reached from `lc` after passing over all of `cs`. -/
def posFrom (lc : LineColumn) (cs : List Char) : LineColumn := cs.foldl nextPos lc

/-- One element of the annotated character stream:
`(character, byte_offset, index, LineColumn)`. -/
structure Ann where
  char : Char
  off : Nat
  idx : Nat
  pos : LineColumn
deriving DecidableEq, Repr

/-- Modelled from the spec: `iter_with_line_column_from` (not under
`src/`) produces, per Unicode scalar value of the buffer, the tuple
`(character, byte_offset, index, LineColumn)`, where the byte offset
accumulates UTF-8 encoded lengths, the index increases by one per
scalar, and the line/column evolves with column reset to 0 and line
incremented on each line terminator. -/
def annotate : List Char → Nat → Nat → LineColumn → List Ann
  | [], _, _, _ => []
  | c :: cs, off, idx, lc =>
    ⟨c, off, idx, lc⟩ :: annotate cs (off + utf8Len c) (idx + 1) (nextPos lc c)

/-- A normalized patch, as in the source: replace an inclusive span, or
insert content immediately before a position. -/
inductive Patch where
  | Replace (replace_span : Span) (replacement : List Char)
  | Insert (insert_at : LineColumn) (content : List Char)
deriving DecidableEq, Repr

/-- A user-facing edit: a span plus replacement content. -/
structure BandAid where
  span : Span
  content : List Char
deriving DecidableEq, Repr

/-- The `From<BandAid> for Patch` conversion: a degenerate span
(`start == end`) becomes an `Insert`, anything else a `Replace`. -/
def Patch.fromBandAid (b : BandAid) : Patch :=
  if b.span.start = b.span.stop then .Insert b.span.start b.content
  else .Replace b.span b.content

/-- The copy boundary contributed by an upcoming patch when peeked at
in the carbon-copy step: `replace_span.start` or `insert_at`. -/
def patchTarget : Patch → LineColumn
  | .Replace s _ => s.start
  | .Insert p _ => p

/-- The `'skip` loop of `apply_patches`: starting from the annotated
stream, peek characters; set the candidate cursor to the byte offset
just past the peeked character, then stop (without consuming) once the
character's position is no longer `< replace_span.end`; otherwise
consume and continue. Returns the remaining stream and the final
`cc_start_byte_offset`. -/
def skipReplaced : List Ann → LineColumn → Nat → List Ann × Nat
  | [], _, cursor => ([], cursor)
  | a :: rest, stop, _cursor =>
    let newOff := a.off + utf8Len a.char
    if stop ≤ a.pos then (a :: rest, newOff)
    else skipReplaced rest stop newOff

/-- The `'cc` loop of `apply_patches`: peek characters; stop (without
consuming) once the position is no longer `< cc_end`; otherwise record
the byte offset just past the character, consume, and continue.
Returns the remaining stream and the final `cc_end_byte_offset`. -/
def carbonCopy : List Ann → LineColumn → Nat → List Ann × Nat
  | [], _, acc => ([], acc)
  | a :: rest, stop, acc =>
    if stop ≤ a.pos then (a :: rest, acc)
    else carbonCopy rest stop (a.off + utf8Len a.char)

/-- One write performed on the sink: either a patch payload
(`write_to_sink("new", data)`) or a carbon-copied byte range of the
original buffer (`write_to_sink("cc", &buffer[lo..hi])`). -/
inductive W where
  | payload (data : List Nat)
  | cc (lo hi : Nat)
deriving DecidableEq, Repr

/-- Handling of the pending `current` patch at the top of the loop of
`apply_patches`: emit its payload; an `Insert` leaves the byte cursor
alone, a `Replace` runs the `'skip` loop. Returns the remaining
stream, the new `cc_start_byte_offset`, and the writes performed. -/
def stepCurrent (it : List Ann) (cursor : Nat) : Option Patch → List Ann × Nat × List W
  | none => (it, cursor, [])
  | some (.Insert _ content) => (it, cursor, [W.payload (strEnc content)])
  | some (.Replace s repl) =>
    let r := skipReplaced it s.stop cursor
    (r.1, r.2, [W.payload (strEnc repl)])

/-- The main loop of `apply_patches`, recursing over the pending patch
list. `blB` is the byte length of the source buffer. Each iteration
handles the `current` patch, then carbon-copies up to the next patch's
start (or to end-of-buffer when no patch remains), emitting the slice
`[cc_start, cc_end)`, and pops the next patch into `current`. -/
def applyLoop (blB : Nat) (current : Option Patch) :
    List Patch → List Ann → Nat → List W
  | [], it, cursor =>
    let s := stepCurrent it cursor current
    s.2.2 ++ [W.cc s.2.1 blB]
  | p :: ps, it, cursor =>
    let s := stepCurrent it cursor current
    let c := carbonCopy s.1 (patchTarget p) s.2.1
    let ccEnd := min c.2 blB
    s.2.2 ++ [W.cc s.2.1 ccEnd] ++ applyLoop blB (some p) ps c.1 ccEnd

/-- The sequence of sink writes performed by `apply_patches` on the
given patches and buffer. -/
def applyPatchesW (patches : List Patch) (B : List Char) : List W :=
  applyLoop (byteLen B) none patches (annotate B 0 0 home) 0

/-- Resolve one write to the bytes it puts on the sink. -/
def renderW (bytes : List Nat) : W → List Nat
  | .payload d => d
  | .cc lo hi => slice bytes lo hi

/-- The full byte stream `apply_patches` produces on the sink. -/
def apply_patches (patches : List Patch) (B : List Char) : List Nat :=
  ((applyPatchesW patches B).map (renderW (strEnc B))).flatten

/-- A fallible sink: write `i` succeeds iff `f i = true`. Attempt the
writes in order; the first failing write aborts with its index (the
`?` propagation in `write_to_sink`), later writes are never attempted. -/
def runWrites (f : Nat → Bool) : List (List Nat) → Nat → Except Nat (List (List Nat))
  | [], _ => .ok []
  | w :: ws, i => if f i then (runWrites f ws (i + 1)).map (w :: ·) else .error i

/-- `apply_patches` against a fallible sink: its writes are attempted
in order; the result is the successfully written chunks or the index
of the first failing write. -/
def applyPatchesSink (f : Nat → Bool) (patches : List Patch) (B : List Char) :
    Except Nat (List (List Nat)) :=
  runWrites f ((applyPatchesW patches B).map (renderW (strEnc B))) 0

/-- The characters of `cs`, walking positions from `lc`, that come
strictly before position `tgt`. This is the portion both scan loops of
`apply_patches` consume before stopping. -/
def takeUntil (tgt : LineColumn) : List Char → LineColumn → List Char
  | [], _ => []
  | c :: cs, lc => if tgt ≤ lc then [] else c :: takeUntil tgt cs (nextPos lc c)

/-- The characters of `cs`, walking positions from `lc`, from the
first one whose position is not strictly before `tgt` onwards. -/
def dropUntil (tgt : LineColumn) : List Char → LineColumn → List Char
  | [], _ => []
  | c :: cs, lc => if tgt ≤ lc then c :: cs else dropUntil tgt cs (nextPos lc c)

/-- UTF-8 length of the head character, 0 for the empty list. -/
def headLen : List Char → Nat
  | [] => 0
  | c :: _ => utf8Len c

/-- The positions of the scalar values of a buffer. -/
def positions (B : List Char) : List LineColumn := (annotate B 0 0 home).map Ann.pos

/-- The characters of `B` at positions strictly before `P`. -/
def charsBefore (P : LineColumn) (B : List Char) : List Char :=
  ((annotate B 0 0 home).filter (fun a => decide (a.pos < P))).map Ann.char

/-- The characters of `B` at position `P` or later. -/
def charsAtOrAfter (P : LineColumn) (B : List Char) : List Char :=
  ((annotate B 0 0 home).filter (fun a => decide (P ≤ a.pos))).map Ann.char

/-- The characters of `B` at positions strictly after `P`. -/
def charsAfter (P : LineColumn) (B : List Char) : List Char :=
  ((annotate B 0 0 home).filter (fun a => decide (P < a.pos))).map Ann.char

/-- `n` is a scalar boundary of buffer `B`: the total byte length of
some scalar-value front segment of `B`. -/
def Boundary (B : List Char) (n : Nat) : Prop := ∃ k, n = byteLen (B.take k)

/-- The head of the annotated stream, if any, sits at or past `P`. -/
def headGe : List Ann → LineColumn → Prop
  | [], _ => True
  | a :: _, P => P ≤ a.pos

/-- State of conclusion of a run, as in the source. -/
inductive Finish where
  | Abort
  | MistakeCount (n : Nat)
deriving DecidableEq, Repr

/-- `Finish::found_any`: true only for a positive mistake count. -/
def Finish.found_any : Finish → Bool
  | .MistakeCount n => if n > 0 then true else false
  | .Abort => false

/-- The fixed temporary file name used by `Action::correct_file`. -/
def TEMPORARY : String := ".spellcheck.tmp"

/-- An idealized filesystem: a map from paths to byte contents, plus
the process's current working directory. -/
structure Fs where
  files : String → Option (List Nat)
  cwd : String

/-- Point update of one path's content. -/
def setFile (fs : Fs) (p : String) (v : Option (List Nat)) : Fs :=
  ⟨fun q => if q = p then v else fs.files q, fs.cwd⟩

/-- Path join, `cwd.join(name)`. -/
def joinPath (a b : String) : String := a ++ "/" ++ b

/-- The full path of the temporary file: the fixed name joined onto
the current working directory. -/
def tmpPath (fs : Fs) : String := joinPath fs.cwd TEMPORARY

/-- External effects `Action::correct_file` depends on, abstracted:
path canonicalization, UTF-8 decoding of the file content, and the
success of opening the temp file, of each sink write, of the final
flush, and of the rename. -/
structure FsOracles where
  canon : String → Option String
  decode : List Nat → Option (List Char)
  openTmpOk : Bool
  sinkOk : Nat → Bool
  flushOk : Bool
  renameOk : Bool

/-- Modelled from the spec: the filesystem semantics (canonicalize,
open/truncate, rename as one atomic operation) behind
`Action::correct_file`, whose step sequence is taken from the source:
canonicalize the path; open it for reading; create/truncate the
fixed-name temporary file in the cwd; read and decode the content;
run `apply_patches` into the temporary file; flush; atomically rename
the temporary file onto the canonical path. Returns every
externally observable filesystem state in order plus a success flag;
a failing step ends the trace at the state reached so far. -/
def correctFileTrace (o : FsOracles) (fs0 : Fs) (path : String)
    (bandaids : List BandAid) : List Fs × Bool :=
  match o.canon path with
  | none => ([fs0], false)
  | some cp =>
    match fs0.files cp with
    | none => ([fs0], false)
    | some content =>
      if o.openTmpOk then
        let fs1 := setFile fs0 (tmpPath fs0) (some [])
        match o.decode content with
        | none => ([fs0, fs1], false)
        | some chars =>
          let ws := (applyPatchesW (bandaids.map Patch.fromBandAid) chars).map
              (renderW (strEnc chars))
          match runWrites o.sinkOk ws 0 with
          | .error i =>
            ([fs0, fs1, setFile fs1 (tmpPath fs0) (some ((ws.take i).flatten))], false)
          | .ok chunks =>
            let fs2 := setFile fs1 (tmpPath fs0) (some chunks.flatten)
            if o.flushOk then
              if o.renameOk then
                ([fs0, fs1, fs2,
                  setFile (setFile fs2 cp (fs2.files (tmpPath fs0))) (tmpPath fs0) none],
                 true)
              else ([fs0, fs1, fs2], false)
            else ([fs0, fs1, fs2], false)
      else ([fs0], false)

/-- A concrete oracle assignment where every external effect succeeds,
used to exercise the materialization model on a concrete run. -/
def wOracles : FsOracles :=
  ⟨fun _ => some "f",
    fun bs => if bs = strEnc "ab".data then some "ab".data else none,
    true, fun _ => true, true, true⟩

/-- A concrete one-file filesystem for exercising the materialization
model: the file `"f"` holds the UTF-8 bytes of `"ab"`, the cwd is `"d"`. -/
def wFs : Fs := ⟨fun q => if q = "f" then some (strEnc "ab".data) else none, "d"⟩

example :
    apply_patches [.Replace ⟨⟨1, 0⟩, ⟨1, 0⟩⟩ "Y".data] "T🐠🐠U".data
      = strEnc "Y🐠🐠U".data := by decide

example :
    apply_patches [.Replace ⟨⟨1, 1⟩, ⟨1, 2⟩⟩ "Y".data] "T🐠🐠U".data
      = strEnc "TYU".data := by decide

example :
    apply_patches [.Replace ⟨⟨1, 3⟩, ⟨1, 3⟩⟩ "Y".data] "T🐠🐠U".data
      = strEnc "T🐠🐠Y".data := by decide

example :
    apply_patches [.Insert ⟨1, 0⟩ "Q".data] "A🐢C".data = strEnc "QA🐢C".data := by decide

example :
    apply_patches [.Insert ⟨1, 2⟩ "Q".data] "A🐢C".data = strEnc "A🐢QC".data := by decide

example :
    apply_patches [.Insert ⟨1, 3⟩ "Q".data] "A🐢C".data = strEnc "A🐢CQ".data := by decide

example :
    apply_patches
      [.Replace ⟨⟨1, 6⟩, ⟨2, 12⟩⟩ "& Omega".data, .Insert ⟨3, 0⟩ "Icecream truck".data]
      "Alpha beta gamma\nzeta eta beta.\n".data
      = strEnc "Alpha & Omega.\nIcecream truck".data := by decide

theorem lc_le_def (a b : LineColumn) :
    a ≤ b ↔ (a.line < b.line ∨ (a.line = b.line ∧ a.column ≤ b.column)) := Iff.rfl

theorem lc_lt_def (a b : LineColumn) :
    a < b ↔ (a.line < b.line ∨ (a.line = b.line ∧ a.column < b.column)) := Iff.rfl

theorem lc_le_refl (a : LineColumn) : a ≤ a := by
  rw [lc_le_def]; omega

theorem lc_le_trans {a b c : LineColumn} (h1 : a ≤ b) (h2 : b ≤ c) : a ≤ c := by
  rw [lc_le_def] at *; omega

theorem lc_lt_of_not_le {a b : LineColumn} (h : ¬ a ≤ b) : b < a := by
  rw [lc_le_def] at h; rw [lc_lt_def]; omega

theorem lc_le_of_lt {a b : LineColumn} (h : a < b) : a ≤ b := by
  rw [lc_lt_def] at h; rw [lc_le_def]; omega

theorem lc_lt_irrefl (a : LineColumn) : ¬ a < a := by
  rw [lc_lt_def]; omega

theorem lc_lt_of_lt_of_le {a b c : LineColumn} (h1 : a < b) (h2 : b ≤ c) : a < c := by
  rw [lc_lt_def] at *; rw [lc_le_def] at h2; omega

theorem lc_lt_of_le_of_lt {a b c : LineColumn} (h1 : a ≤ b) (h2 : b < c) : a < c := by
  rw [lc_le_def] at h1; rw [lc_lt_def] at *; omega

theorem lc_le_antisymm {a b : LineColumn} (h1 : a ≤ b) (h2 : b ≤ a) : a = b := by
  cases a; cases b
  rw [lc_le_def] at h1 h2
  simp_all; omega

theorem lc_not_lt_of_lt {a b : LineColumn} (h : a < b) : ¬ b < a := by
  rw [lc_lt_def] at *; omega

theorem lc_not_le_of_lt {a b : LineColumn} (h : a < b) : ¬ b ≤ a := by
  rw [lc_lt_def] at h; rw [lc_le_def]; omega

theorem lc_lt_nextPos (lc : LineColumn) (c : Char) : lc < nextPos lc c := by
  unfold nextPos
  split <;> (rw [lc_lt_def]; dsimp; omega)

theorem lc_le_nextPos (lc : LineColumn) (c : Char) : lc ≤ nextPos lc c :=
  lc_le_of_lt (lc_lt_nextPos lc c)

theorem byteLen_nil : byteLen [] = 0 := rfl

theorem byteLen_cons (c : Char) (cs : List Char) :
    byteLen (c :: cs) = utf8Len c + byteLen cs := by
  simp [byteLen]

theorem byteLen_append (xs ys : List Char) :
    byteLen (xs ++ ys) = byteLen xs + byteLen ys := by
  simp [byteLen]

theorem utf8Len_pos (c : Char) : 0 < utf8Len c := by
  unfold utf8Len; split_ifs <;> omega

theorem utf8Enc_length (c : Char) : (utf8Enc c).length = utf8Len c := by
  simp only [utf8Enc, utf8Len]
  split_ifs <;> rfl

theorem strEnc_nil : strEnc [] = [] := rfl

theorem strEnc_cons (c : Char) (cs : List Char) :
    strEnc (c :: cs) = utf8Enc c ++ strEnc cs := by
  simp [strEnc]

theorem strEnc_append (xs ys : List Char) :
    strEnc (xs ++ ys) = strEnc xs ++ strEnc ys := by
  simp [strEnc]

theorem strEnc_length (cs : List Char) : (strEnc cs).length = byteLen cs := by
  induction cs with
  | nil => rfl
  | cons c cs ih => simp [strEnc_cons, byteLen_cons, utf8Enc_length, ih]

theorem slice_full (bytes : List Nat) : slice bytes 0 bytes.length = bytes := by
  simp [slice]

theorem slice_self (bytes : List Nat) (a : Nat) : slice bytes a a = [] := by
  unfold slice
  exact List.drop_eq_nil_of_le (by simp)

theorem annotate_append (xs ys : List Char) (off idx : Nat) (lc : LineColumn) :
    annotate (xs ++ ys) off idx lc
      = annotate xs off idx lc
        ++ annotate ys (off + byteLen xs) (idx + xs.length) (posFrom lc xs) := by
  induction xs generalizing off idx lc with
  | nil => simp [annotate, posFrom, byteLen_nil]
  | cons c cs ih =>
    have h1 : off + byteLen (c :: cs) = (off + utf8Len c) + byteLen cs := by
      rw [byteLen_cons]; omega
    have h2 : idx + (c :: cs).length = (idx + 1) + cs.length := by
      simp [List.length_cons]; omega
    have h3 : posFrom lc (c :: cs) = posFrom (nextPos lc c) cs := rfl
    calc annotate ((c :: cs) ++ ys) off idx lc
        = ⟨c, off, idx, lc⟩
            :: annotate (cs ++ ys) (off + utf8Len c) (idx + 1) (nextPos lc c) := rfl
      _ = ⟨c, off, idx, lc⟩
            :: (annotate cs (off + utf8Len c) (idx + 1) (nextPos lc c)
              ++ annotate ys ((off + utf8Len c) + byteLen cs) ((idx + 1) + cs.length)
                (posFrom (nextPos lc c) cs)) := by rw [ih]
      _ = annotate (c :: cs) off idx lc
            ++ annotate ys (off + byteLen (c :: cs)) (idx + (c :: cs).length)
              (posFrom lc (c :: cs)) := by
          rw [h1, h2, h3]; rfl

theorem annotate_chars (cs : List Char) (off idx : Nat) (lc : LineColumn) :
    (annotate cs off idx lc).map Ann.char = cs := by
  induction cs generalizing off idx lc with
  | nil => rfl
  | cons c cs ih => simp [annotate, ih]

theorem annotate_pos_ge (cs : List Char) (off idx : Nat) (lc : LineColumn) :
    ∀ a ∈ annotate cs off idx lc, lc ≤ a.pos := by
  induction cs generalizing off idx lc with
  | nil => intro a ha; simp [annotate] at ha
  | cons c cs ih =>
    intro a ha
    rcases List.mem_cons.mp ha with h | h
    · subst h; exact lc_le_refl lc
    · exact lc_le_trans (lc_le_nextPos lc c) (ih _ _ _ a h)

theorem posFrom_nil (lc : LineColumn) : posFrom lc [] = lc := rfl

theorem posFrom_cons (lc : LineColumn) (c : Char) (cs : List Char) :
    posFrom lc (c :: cs) = posFrom (nextPos lc c) cs := rfl

theorem takeUntil_append_dropUntil (tgt : LineColumn) (cs : List Char) (lc : LineColumn) :
    takeUntil tgt cs lc ++ dropUntil tgt cs lc = cs := by
  induction cs generalizing lc with
  | nil => rfl
  | cons c cs ih =>
    simp only [takeUntil, dropUntil]
    split_ifs with h
    · rfl
    · simp only [List.cons_append, ih]

theorem takeUntil_pos_lt (tgt : LineColumn) (cs : List Char) :
    ∀ (off idx : Nat) (lc : LineColumn),
      ∀ a ∈ annotate (takeUntil tgt cs lc) off idx lc, a.pos < tgt := by
  induction cs with
  | nil => intro off idx lc a ha; simp [takeUntil, annotate] at ha
  | cons c cs ih =>
    intro off idx lc a ha
    simp only [takeUntil] at ha
    split_ifs at ha with h
    · simp [annotate] at ha
    · simp only [annotate] at ha
      rcases List.mem_cons.mp ha with h' | h'
      · subst h'; exact lc_lt_of_not_le h
      · exact ih _ _ _ a h'

theorem dropUntil_pos_ge (tgt : LineColumn) (cs : List Char) :
    ∀ lc : LineColumn, dropUntil tgt cs lc ≠ [] → tgt ≤ posFrom lc (takeUntil tgt cs lc) := by
  induction cs with
  | nil => intro lc h; simp [dropUntil] at h
  | cons c cs ih =>
    intro lc h
    simp only [dropUntil] at h
    simp only [takeUntil]
    split_ifs at h ⊢ with hle
    · simpa [posFrom_nil] using hle
    · simpa [posFrom_cons] using ih (nextPos lc c) h

theorem byteLen_take_le (B : List Char) (k : Nat) : byteLen (B.take k) ≤ byteLen B := by
  conv_rhs => rw [← List.take_append_drop k B]
  rw [byteLen_append]; omega

theorem byteLen_take_mono (B : List Char) {j m : Nat} (h : j ≤ m) :
    byteLen (B.take j) ≤ byteLen (B.take m) := by
  have heq : B.take j = (B.take m).take j := by
    rw [List.take_take, Nat.min_eq_left h]
  rw [heq]
  exact byteLen_take_le _ _

theorem boundary_zero (B : List Char) : Boundary B 0 := ⟨0, rfl⟩

theorem boundary_len (B : List Char) : Boundary B (byteLen B) :=
  ⟨B.length, by rw [List.take_length]⟩

theorem boundary_of_front {B front rest : List Char} (h : B = front ++ rest) :
    Boundary B (byteLen front) :=
  ⟨front.length, by subst h; rw [List.take_left]⟩

theorem boundary_min {B : List Char} {a b : Nat} (ha : Boundary B a) (hb : Boundary B b) :
    Boundary B (min a b) := by
  obtain ⟨k, rfl⟩ := ha
  obtain ⟨j, rfl⟩ := hb
  rcases Nat.le_total k j with h | h
  · rw [Nat.min_eq_left (byteLen_take_mono B h)]; exact ⟨k, rfl⟩
  · rw [Nat.min_eq_right (byteLen_take_mono B h)]; exact ⟨j, rfl⟩

theorem annotate_congr (cs : List Char) (lc : LineColumn) {o1 o2 i1 i2 : Nat}
    (ho : o1 = o2) (hi : i1 = i2) : annotate cs o1 i1 lc = annotate cs o2 i2 lc := by
  subst ho; subst hi; rfl

theorem carbonCopy_annotate (tgt : LineColumn) (cs : List Char) :
    ∀ (off idx : Nat) (lc : LineColumn) (acc : Nat),
      carbonCopy (annotate cs off idx lc) tgt acc =
        (annotate (dropUntil tgt cs lc) (off + byteLen (takeUntil tgt cs lc))
            (idx + (takeUntil tgt cs lc).length) (posFrom lc (takeUntil tgt cs lc)),
          if takeUntil tgt cs lc = [] then acc else off + byteLen (takeUntil tgt cs lc)) := by
  induction cs with
  | nil =>
    intro off idx lc acc
    simp [annotate, carbonCopy, takeUntil, dropUntil, posFrom_nil, byteLen_nil]
  | cons c cs ih =>
    intro off idx lc acc
    by_cases h : tgt ≤ lc
    · simp only [annotate, carbonCopy]
      rw [if_pos h]
      simp [takeUntil, dropUntil, h, annotate, posFrom_nil, byteLen_nil]
    · simp only [annotate, carbonCopy]
      rw [if_neg h, ih]
      simp only [takeUntil, dropUntil, if_neg h]
      rw [if_neg (List.cons_ne_nil c (takeUntil tgt cs (nextPos lc c)))]
      rw [Prod.mk.injEq]
      constructor
      · exact annotate_congr _ _ (by rw [byteLen_cons]; omega) (by simp only [List.length_cons]; omega)
      · by_cases htu : takeUntil tgt cs (nextPos lc c) = []
        · rw [if_pos htu, htu]
          simp [byteLen_cons, byteLen_nil]
        · rw [if_neg htu, byteLen_cons]
          omega

theorem skipReplaced_annotate (tgt : LineColumn) (cs : List Char) :
    ∀ (off idx : Nat) (lc : LineColumn) (cursor : Nat),
      skipReplaced (annotate cs off idx lc) tgt cursor =
        (annotate (dropUntil tgt cs lc) (off + byteLen (takeUntil tgt cs lc))
            (idx + (takeUntil tgt cs lc).length) (posFrom lc (takeUntil tgt cs lc)),
          if cs = [] then cursor
          else off + byteLen (takeUntil tgt cs lc) + headLen (dropUntil tgt cs lc)) := by
  induction cs with
  | nil =>
    intro off idx lc cursor
    simp [annotate, skipReplaced, takeUntil, dropUntil, posFrom_nil, byteLen_nil]
  | cons c cs ih =>
    intro off idx lc cursor
    by_cases h : tgt ≤ lc
    · simp only [annotate, skipReplaced]
      rw [if_pos h]
      simp [takeUntil, dropUntil, h, annotate, posFrom_nil, byteLen_nil, headLen]
    · simp only [annotate, skipReplaced]
      rw [if_neg h, ih]
      simp only [takeUntil, dropUntil, if_neg h]
      rw [if_neg (List.cons_ne_nil c cs)]
      rw [Prod.mk.injEq]
      constructor
      · exact annotate_congr _ _ (by rw [byteLen_cons]; omega) (by simp only [List.length_cons]; omega)
      · by_cases hcs : cs = []
        · subst hcs
          rw [if_pos rfl]
          simp [takeUntil, dropUntil, byteLen_cons, byteLen_nil, headLen]
        · rw [if_neg hcs, byteLen_cons]
          omega

theorem charsBefore_eq (P : LineColumn) (B : List Char) :
    charsBefore P B = takeUntil P B home := by
  unfold charsBefore
  conv_lhs => rw [← takeUntil_append_dropUntil P B home]
  rw [annotate_append, List.filter_append]
  have h1 : (annotate (takeUntil P B home) 0 0 home).filter (fun a => decide (a.pos < P))
      = annotate (takeUntil P B home) 0 0 home :=
    List.filter_eq_self.mpr fun a ha => decide_eq_true (takeUntil_pos_lt P B 0 0 home a ha)
  have h2 : (annotate (dropUntil P B home) (0 + byteLen (takeUntil P B home))
      (0 + (takeUntil P B home).length) (posFrom home (takeUntil P B home))).filter
        (fun a => decide (a.pos < P)) = [] := by
    by_cases hdu : dropUntil P B home = []
    · rw [hdu]; rfl
    · refine List.filter_eq_nil_iff.mpr fun a ha => ?_
      have hge := annotate_pos_ge _ _ _ _ a ha
      have hP := dropUntil_pos_ge P B home hdu
      have hPa : P ≤ a.pos := lc_le_trans hP hge
      simp only [decide_eq_true_eq]
      intro hlt
      exact lc_lt_irrefl P (lc_lt_of_le_of_lt hPa hlt)
  rw [h1, h2, List.append_nil, annotate_chars]

theorem charsAtOrAfter_eq (P : LineColumn) (B : List Char) :
    charsAtOrAfter P B = dropUntil P B home := by
  unfold charsAtOrAfter
  conv_lhs => rw [← takeUntil_append_dropUntil P B home]
  rw [annotate_append, List.filter_append]
  have h1 : (annotate (takeUntil P B home) 0 0 home).filter (fun a => decide (P ≤ a.pos))
      = [] := by
    refine List.filter_eq_nil_iff.mpr fun a ha => ?_
    have := takeUntil_pos_lt P B 0 0 home a ha
    simp only [decide_eq_true_eq]
    exact lc_not_le_of_lt this
  have h2 : (annotate (dropUntil P B home) (0 + byteLen (takeUntil P B home))
      (0 + (takeUntil P B home).length) (posFrom home (takeUntil P B home))).filter
        (fun a => decide (P ≤ a.pos))
      = annotate (dropUntil P B home) (0 + byteLen (takeUntil P B home))
          (0 + (takeUntil P B home).length) (posFrom home (takeUntil P B home)) := by
    by_cases hdu : dropUntil P B home = []
    · rw [hdu]; rfl
    · refine List.filter_eq_self.mpr fun a ha => ?_
      have hge := annotate_pos_ge _ _ _ _ a ha
      have hP := dropUntil_pos_ge P B home hdu
      exact decide_eq_true (lc_le_trans hP hge)
  rw [h1, h2, List.nil_append, annotate_chars]

theorem charsAfter_eq {E : LineColumn} {B : List Char} {d : Char} {tl : List Char}
    (hdu : dropUntil E B home = d :: tl)
    (hpos : posFrom home (takeUntil E B home) = E) :
    charsAfter E B = tl := by
  unfold charsAfter
  conv_lhs => rw [← takeUntil_append_dropUntil E B home]
  rw [annotate_append, List.filter_append]
  have h1 : (annotate (takeUntil E B home) 0 0 home).filter (fun a => decide (E < a.pos))
      = [] := by
    refine List.filter_eq_nil_iff.mpr fun a ha => ?_
    have hlt := takeUntil_pos_lt E B 0 0 home a ha
    simp only [decide_eq_true_eq]
    intro hgt
    exact lc_lt_irrefl E (lc_lt_of_lt_of_le hgt (lc_le_of_lt hlt))
  rw [h1, List.nil_append, hdu, hpos]
  simp only [annotate, List.filter_cons]
  have hhead : decide (E < (⟨d, 0 + byteLen (takeUntil E B home),
      0 + (takeUntil E B home).length, E⟩ : Ann).pos) = false := by
    simp only [decide_eq_false_iff_not]
    exact lc_lt_irrefl E
  rw [hhead]
  simp only [Bool.false_eq_true, if_false]
  have h2 : (annotate tl (0 + byteLen (takeUntil E B home) + utf8Len d)
      (0 + (takeUntil E B home).length + 1) (nextPos E d)).filter
        (fun a => decide (E < a.pos))
      = annotate tl (0 + byteLen (takeUntil E B home) + utf8Len d)
          (0 + (takeUntil E B home).length + 1) (nextPos E d) := by
    refine List.filter_eq_self.mpr fun a ha => ?_
    have hge := annotate_pos_ge _ _ _ _ a ha
    exact decide_eq_true (lc_lt_of_lt_of_le (lc_lt_nextPos E d) hge)
  rw [h2, annotate_chars]

theorem mem_positions_split {E : LineColumn} (cs : List Char) :
    ∀ (off idx : Nat) (lc : LineColumn),
      E ∈ (annotate cs off idx lc).map Ann.pos →
      dropUntil E cs lc ≠ [] ∧ posFrom lc (takeUntil E cs lc) = E := by
  induction cs with
  | nil => intro off idx lc h; simp [annotate] at h
  | cons c cs ih =>
    intro off idx lc h
    simp only [annotate, List.map_cons, List.mem_cons] at h
    by_cases hle : E ≤ lc
    · have hlc : lc ≤ E := by
        rcases h with h | h
        · rw [h]; exact lc_le_refl _
        · obtain ⟨a, ha, hpa⟩ := List.mem_map.mp h
          have := annotate_pos_ge _ _ _ _ a ha
          exact lc_le_trans (lc_le_nextPos lc c) (hpa ▸ this)
      have hEq : E = lc := lc_le_antisymm hle hlc
      constructor
      · simp [dropUntil, hle]
      · rw [hEq]; simp [takeUntil, lc_le_refl, posFrom_nil]
    · have hEtail : E ∈ (annotate cs (off + utf8Len c) (idx + 1) (nextPos lc c)).map Ann.pos := by
        rcases h with h | h
        · exact absurd (h ▸ lc_le_refl E) hle
        · exact h
      obtain ⟨hne, hpos⟩ := ih _ _ _ hEtail
      constructor
      · simpa [dropUntil, hle] using hne
      · simpa [takeUntil, hle, posFrom_cons] using hpos

theorem untilCompose {S E : LineColumn} (hSE : S ≤ E) (cs : List Char) :
    ∀ lc : LineColumn,
      takeUntil E cs lc
          = takeUntil S cs lc
            ++ takeUntil E (dropUntil S cs lc) (posFrom lc (takeUntil S cs lc))
        ∧ dropUntil E cs lc
          = dropUntil E (dropUntil S cs lc) (posFrom lc (takeUntil S cs lc)) := by
  induction cs with
  | nil => intro lc; simp [takeUntil, dropUntil]
  | cons c cs ih =>
    intro lc
    by_cases hS : S ≤ lc
    · simp [takeUntil, dropUntil, hS, posFrom_nil]
    · have hE : ¬ E ≤ lc := fun hc => hS (lc_le_trans hSE hc)
      simp only [takeUntil, dropUntil, if_neg hS, if_neg hE]
      obtain ⟨h1, h2⟩ := ih (nextPos lc c)
      constructor
      · rw [List.cons_append, posFrom_cons]
        exact congrArg (c :: ·) h1
      · rw [posFrom_cons]
        exact h2

theorem slice_front (xs ys : List Char) :
    slice (strEnc (xs ++ ys)) 0 (byteLen xs) = strEnc xs := by
  unfold slice
  rw [strEnc_append, ← strEnc_length xs, List.take_left, List.drop_zero]

theorem slice_back (xs ys : List Char) :
    slice (strEnc (xs ++ ys)) (byteLen xs) (byteLen (xs ++ ys)) = strEnc ys := by
  unfold slice
  rw [← strEnc_length (xs ++ ys), List.take_length, strEnc_append, ← strEnc_length xs,
    List.drop_left]

theorem byteLen_takeUntil_le (P : LineColumn) (B : List Char) (lc : LineColumn) :
    byteLen (takeUntil P B lc) ≤ byteLen B := by
  conv_rhs => rw [← takeUntil_append_dropUntil P B lc]
  rw [byteLen_append]; omega

theorem ccStart_zero (tu : List Char) :
    (if tu = [] then 0 else 0 + byteLen tu) = byteLen tu := by
  split_ifs with h
  · rw [h, byteLen_nil]
  · omega

theorem slice_split_front {B xs ys : List Char} (h : B = xs ++ ys) :
    slice (strEnc B) 0 (byteLen xs) = strEnc xs := by
  rw [h]; exact slice_front xs ys

theorem slice_split_back {B xs ys : List Char} (h : B = xs ++ ys) :
    slice (strEnc B) (byteLen xs) (byteLen B) = strEnc ys := by
  rw [h]; exact slice_back xs ys

theorem applyPatchesW_nil (B : List Char) :
    applyPatchesW [] B = [W.cc 0 (byteLen B)] := rfl

theorem apply_patches_nil (B : List Char) : apply_patches [] B = strEnc B := by
  unfold apply_patches
  rw [applyPatchesW_nil]
  simp only [List.map_cons, List.map_nil, renderW, List.flatten_cons, List.flatten_nil,
    List.append_nil]
  rw [← strEnc_length B, slice_full]

theorem single_insert_writes (B : List Char) (P : LineColumn) (C : List Char) :
    applyPatchesW [.Insert P C] B
      = [W.cc 0 (byteLen (takeUntil P B home)),
          W.payload (strEnc C),
          W.cc (byteLen (takeUntil P B home)) (byteLen B)] := by
  unfold applyPatchesW
  simp only [applyLoop, stepCurrent, patchTarget]
  rw [carbonCopy_annotate]
  simp only [ccStart_zero]
  rw [Nat.min_eq_left (byteLen_takeUntil_le P B home)]
  rfl

theorem apply_single_insert (B : List Char) (P : LineColumn) (C : List Char) :
    apply_patches [.Insert P C] B
      = strEnc (takeUntil P B home) ++ strEnc C ++ strEnc (dropUntil P B home) := by
  unfold apply_patches
  rw [single_insert_writes]
  simp only [List.map_cons, List.map_nil, renderW, List.flatten_cons, List.flatten_nil,
    List.append_nil]
  rw [slice_split_front (takeUntil_append_dropUntil P B home).symm,
    slice_split_back (takeUntil_append_dropUntil P B home).symm, List.append_assoc]

theorem single_replace_writes (B : List Char) (S E : LineColumn) (C : List Char)
    (hduS : dropUntil S B home ≠ []) :
    applyPatchesW [.Replace ⟨S, E⟩ C] B
      = [W.cc 0 (byteLen (takeUntil S B home)),
          W.payload (strEnc C),
          W.cc (byteLen (takeUntil S B home)
              + byteLen (takeUntil E (dropUntil S B home) (posFrom home (takeUntil S B home)))
              + headLen (dropUntil E (dropUntil S B home) (posFrom home (takeUntil S B home))))
            (byteLen B)] := by
  unfold applyPatchesW
  simp only [applyLoop, stepCurrent, patchTarget]
  rw [carbonCopy_annotate]
  simp only [ccStart_zero]
  rw [Nat.min_eq_left (byteLen_takeUntil_le S B home)]
  rw [skipReplaced_annotate, if_neg hduS]
  simp only [Nat.zero_add]
  rfl

theorem single_replace_spec (B : List Char) (S E : LineColumn) (C : List Char)
    (hS : S ∈ positions B) (hE : E ∈ positions B) (hSE : S ≤ E) :
    apply_patches [.Replace ⟨S, E⟩ C] B
      = strEnc (charsBefore S B) ++ strEnc C ++ strEnc (charsAfter E B) := by
  unfold positions at hS hE
  obtain ⟨hduS, hposS⟩ := mem_positions_split B 0 0 home hS
  obtain ⟨hduE, hposE⟩ := mem_positions_split B 0 0 home hE
  obtain ⟨hcompTu, hcompDu⟩ := untilCompose hSE B home
  obtain ⟨d, tl, hdtl⟩ : ∃ d tl, dropUntil E B home = d :: tl := by
    rcases hx : dropUntil E B home with _ | ⟨d, tl⟩
    · exact absurd hx hduE
    · exact ⟨d, tl, rfl⟩
  unfold apply_patches
  rw [single_replace_writes B S E C hduS]
  simp only [List.map_cons, List.map_nil, renderW, List.flatten_cons, List.flatten_nil,
    List.append_nil]
  rw [slice_split_front (takeUntil_append_dropUntil S B home).symm]
  have h1 : headLen (dropUntil E (dropUntil S B home) (posFrom home (takeUntil S B home)))
      = utf8Len d := by
    rw [← hcompDu, hdtl]; rfl
  have hcur : byteLen (takeUntil S B home)
      + byteLen (takeUntil E (dropUntil S B home) (posFrom home (takeUntil S B home)))
      + headLen (dropUntil E (dropUntil S B home) (posFrom home (takeUntil S B home)))
      = byteLen (takeUntil E B home ++ [d]) := by
    rw [h1]
    rw [show byteLen (takeUntil E B home ++ [d])
        = byteLen (takeUntil E B home) + utf8Len d from by
      rw [byteLen_append, byteLen_cons, byteLen_nil]; omega]
    rw [hcompTu, byteLen_append]
  rw [hcur]
  have hB2 : B = (takeUntil E B home ++ [d]) ++ tl := by
    conv_lhs => rw [← takeUntil_append_dropUntil E B home]
    rw [hdtl, ← List.singleton_append, ← List.append_assoc]
  rw [slice_split_back hB2]
  rw [charsBefore_eq, charsAfter_eq hdtl hposE, List.append_assoc]

theorem carbonCopy_headGe (it : List Ann) (P : LineColumn) (acc : Nat) (h : headGe it P) :
    carbonCopy it P acc = (it, acc) := by
  cases it with
  | nil => rfl
  | cons a rest =>
    simp only [headGe] at h
    simp only [carbonCopy]
    rw [if_pos h]

theorem insertsLoop (B : List Char) (P : LineColumn) :
    ∀ (rest : List (List Char)) (c : List Char) (it : List Ann) (cursor : Nat),
      headGe it P → cursor ≤ byteLen B →
      ((applyLoop (byteLen B) (some (.Insert P c)) (rest.map (Patch.Insert P)) it cursor).map
          (renderW (strEnc B))).flatten
        = strEnc c ++ (rest.map strEnc).flatten ++ slice (strEnc B) cursor (byteLen B) := by
  intro rest
  induction rest with
  | nil =>
    intro c it cursor hge hc
    simp only [List.map_nil, applyLoop, stepCurrent, List.map_cons, renderW,
      List.flatten_nil, List.flatten_cons, List.map_append, List.flatten_append]
    simp
  | cons c2 cs ihr =>
    intro c it cursor hge hc
    simp only [List.map_cons, applyLoop, stepCurrent, patchTarget]
    rw [carbonCopy_headGe it P cursor hge, Nat.min_eq_left hc]
    simp only [List.map_append, List.flatten_append]
    rw [ihr c2 it cursor hge hc]
    simp [renderW, slice_self]

theorem colocated_inserts_spec (B : List Char) (P : LineColumn) (cs : List (List Char))
    (hP : P ∈ positions B) (hlen : 2 ≤ cs.length) :
    apply_patches (cs.map (Patch.Insert P)) B
      = strEnc (charsBefore P B) ++ (cs.map strEnc).flatten
        ++ strEnc (charsAtOrAfter P B) := by
  obtain ⟨c1, cs', rfl⟩ : ∃ c1 cs', cs = c1 :: cs' := by
    cases cs with
    | nil => simp at hlen
    | cons a l => exact ⟨a, l, rfl⟩
  unfold positions at hP
  obtain ⟨hdu, hpos⟩ := mem_positions_split B 0 0 home hP
  unfold apply_patches applyPatchesW
  simp only [List.map_cons, applyLoop, stepCurrent, patchTarget]
  rw [carbonCopy_annotate]
  simp only [ccStart_zero]
  rw [Nat.min_eq_left (byteLen_takeUntil_le P B home)]
  have hge : headGe (annotate (dropUntil P B home) (0 + byteLen (takeUntil P B home))
      (0 + (takeUntil P B home).length) (posFrom home (takeUntil P B home))) P := by
    rcases hx : dropUntil P B home with _ | ⟨d, tl⟩
    · simp [annotate, headGe]
    · simp only [annotate, headGe]
      rw [hpos]
      exact lc_le_refl P
  simp only [List.map_append, List.flatten_append]
  rw [insertsLoop B P cs' c1 _ _ hge (byteLen_takeUntil_le P B home)]
  simp only [List.map_cons, List.map_nil, renderW, List.flatten_cons, List.flatten_nil,
    List.append_nil, List.nil_append]
  rw [slice_split_front (takeUntil_append_dropUntil P B home).symm,
    slice_split_back (takeUntil_append_dropUntil P B home).symm]
  rw [charsBefore_eq, charsAtOrAfter_eq]
  simp [List.append_assoc]

theorem drop_decomp {B : List Char} {k : Nat} {tu du : List Char}
    (h : tu ++ du = B.drop k) :
    B.take (k + tu.length) = B.take k ++ tu ∧ B.drop (k + tu.length) = du := by
  constructor
  · rw [List.take_add]
    congr 1
    rw [← h, List.take_left]
  · conv_rhs => rw [(List.drop_left tu du).symm, h]
    rw [List.drop_drop]

theorem carbonCopy_shape (B : List Char) (tgt : LineColumn) (k idx : Nat)
    (lc : LineColumn) (acc : Nat) :
    ∃ k2 idx2 lc2 e,
      carbonCopy (annotate (B.drop k) (byteLen (B.take k)) idx lc) tgt acc
        = (annotate (B.drop k2) (byteLen (B.take k2)) idx2 lc2, e)
      ∧ (e = acc ∨ Boundary B e) := by
  rw [carbonCopy_annotate]
  obtain ⟨h1, h2⟩ := drop_decomp (takeUntil_append_dropUntil tgt (B.drop k) lc)
  refine ⟨k + (takeUntil tgt (B.drop k) lc).length,
    idx + (takeUntil tgt (B.drop k) lc).length,
    posFrom lc (takeUntil tgt (B.drop k) lc),
    if takeUntil tgt (B.drop k) lc = [] then acc
      else byteLen (B.take k) + byteLen (takeUntil tgt (B.drop k) lc), ?_, ?_⟩
  · rw [Prod.mk.injEq]
    refine ⟨?_, rfl⟩
    rw [h2, h1, byteLen_append]
  · by_cases htu : takeUntil tgt (B.drop k) lc = []
    · left; rw [if_pos htu]
    · right
      rw [if_neg htu]
      refine ⟨k + (takeUntil tgt (B.drop k) lc).length, ?_⟩
      rw [h1, byteLen_append]

theorem skipReplaced_shape (B : List Char) (tgt : LineColumn) (k idx : Nat)
    (lc : LineColumn) (cursor : Nat) :
    ∃ k2 idx2 lc2 e,
      skipReplaced (annotate (B.drop k) (byteLen (B.take k)) idx lc) tgt cursor
        = (annotate (B.drop k2) (byteLen (B.take k2)) idx2 lc2, e)
      ∧ (e = cursor ∨ Boundary B e) := by
  rw [skipReplaced_annotate]
  obtain ⟨h1, h2⟩ := drop_decomp (takeUntil_append_dropUntil tgt (B.drop k) lc)
  refine ⟨k + (takeUntil tgt (B.drop k) lc).length,
    idx + (takeUntil tgt (B.drop k) lc).length,
    posFrom lc (takeUntil tgt (B.drop k) lc),
    if B.drop k = [] then cursor
      else byteLen (B.take k) + byteLen (takeUntil tgt (B.drop k) lc)
        + headLen (dropUntil tgt (B.drop k) lc), ?_, ?_⟩
  · rw [Prod.mk.injEq]
    refine ⟨?_, rfl⟩
    rw [h2, h1, byteLen_append]
  · by_cases hdk : B.drop k = []
    · left; rw [if_pos hdk]
    · right
      rw [if_neg hdk]
      have hoff : byteLen (B.take k) + byteLen (takeUntil tgt (B.drop k) lc)
          = byteLen (B.take (k + (takeUntil tgt (B.drop k) lc).length)) := by
        rw [h1, byteLen_append]
      rcases hdu : dropUntil tgt (B.drop k) lc with _ | ⟨d, du2⟩
      · rw [headLen, Nat.add_zero, hoff]
        exact ⟨k + (takeUntil tgt (B.drop k) lc).length, rfl⟩
      · rw [headLen, hoff]
        have hdec : [d] ++ du2 = B.drop (k + (takeUntil tgt (B.drop k) lc).length) := by
          rw [h2, hdu]; rfl
        obtain ⟨h3, _⟩ := drop_decomp hdec
        refine ⟨k + (takeUntil tgt (B.drop k) lc).length + 1, ?_⟩
        rw [show k + (takeUntil tgt (B.drop k) lc).length + ([d] : List Char).length
            = k + (takeUntil tgt (B.drop k) lc).length + 1 from rfl] at h3
        rw [h3, byteLen_append, byteLen_cons, byteLen_nil]
        omega

theorem stepCurrent_shape (B : List Char) (cur : Option Patch) (k idx : Nat)
    (lc : LineColumn) (cursor : Nat) :
    ∃ k2 idx2 lc2 e pre,
      stepCurrent (annotate (B.drop k) (byteLen (B.take k)) idx lc) cursor cur
        = (annotate (B.drop k2) (byteLen (B.take k2)) idx2 lc2, e, pre)
      ∧ (e = cursor ∨ Boundary B e)
      ∧ ∀ w ∈ pre, ∃ d, w = W.payload d := by
  cases cur with
  | none =>
    exact ⟨k, idx, lc, cursor, [], rfl, Or.inl rfl, by simp⟩
  | some p =>
    cases p with
    | Insert P c =>
      exact ⟨k, idx, lc, cursor, [W.payload (strEnc c)], rfl, Or.inl rfl, by simp⟩
    | Replace s repl =>
      obtain ⟨k2, idx2, lc2, e, hskip, he⟩ := skipReplaced_shape B s.stop k idx lc cursor
      refine ⟨k2, idx2, lc2, e, [W.payload (strEnc repl)], ?_, he, by simp⟩
      simp only [stepCurrent, hskip]

theorem applyLoop_cc_boundary (B : List Char) :
    ∀ (ps : List Patch) (cur : Option Patch) (k idx : Nat) (lc : LineColumn) (cursor : Nat),
      Boundary B cursor →
      ∀ lo hi,
        W.cc lo hi ∈ applyLoop (byteLen B) cur ps
          (annotate (B.drop k) (byteLen (B.take k)) idx lc) cursor →
        Boundary B lo ∧ Boundary B hi := by
  intro ps
  induction ps with
  | nil =>
    intro cur k idx lc cursor hb lo hi hmem
    obtain ⟨k2, idx2, lc2, e, pre, hstep, he, hpre⟩ := stepCurrent_shape B cur k idx lc cursor
    simp only [applyLoop, hstep] at hmem
    rcases List.mem_append.mp hmem with hmem | hmem
    · obtain ⟨d, hd⟩ := hpre _ hmem
      exact absurd hd (by simp)
    · have : W.cc lo hi = W.cc e (byteLen B) := List.mem_singleton.mp hmem
      obtain ⟨h1, h2⟩ := W.cc.inj this
      subst h1; subst h2
      refine ⟨?_, boundary_len B⟩
      rcases he with he | he
      · rw [he]; exact hb
      · exact he
  | cons p ps ih =>
    intro cur k idx lc cursor hb lo hi hmem
    obtain ⟨k2, idx2, lc2, e, pre, hstep, he, hpre⟩ := stepCurrent_shape B cur k idx lc cursor
    have hbe : Boundary B e := by
      rcases he with he | he
      · rw [he]; exact hb
      · exact he
    obtain ⟨k3, idx3, lc3, e3, hcc, he3⟩ := carbonCopy_shape B (patchTarget p) k2 idx2 lc2 e
    have hbe3 : Boundary B e3 := by
      rcases he3 with he3 | he3
      · rw [he3]; exact hbe
      · exact he3
    have hbmin : Boundary B (min e3 (byteLen B)) := boundary_min hbe3 (boundary_len B)
    simp only [applyLoop, hstep, hcc] at hmem
    rcases List.mem_append.mp hmem with hmem | hmem
    · rcases List.mem_append.mp hmem with hmem | hmem
      · obtain ⟨d, hd⟩ := hpre _ hmem
        exact absurd hd (by simp)
      · have : W.cc lo hi = W.cc e (min e3 (byteLen B)) := List.mem_singleton.mp hmem
        obtain ⟨h1, h2⟩ := W.cc.inj this
        subst h1; subst h2
        exact ⟨hbe, hbmin⟩
    · exact ih (some p) k3 idx3 lc3 (min e3 (byteLen B)) hbmin lo hi hmem

theorem applyPatchesW_cc_boundary (ps : List Patch) (B : List Char) {lo hi : Nat}
    (hmem : W.cc lo hi ∈ applyPatchesW ps B) : Boundary B lo ∧ Boundary B hi := by
  have h0 : annotate B 0 0 home = annotate (B.drop 0) (byteLen (B.take 0)) 0 home := by
    rw [List.drop_zero, List.take_zero, byteLen_nil]
  unfold applyPatchesW at hmem
  rw [h0] at hmem
  exact applyLoop_cc_boundary B ps none 0 0 home 0 (boundary_zero B) lo hi hmem

theorem runWrites_spec (f : Nat → Bool) :
    ∀ (ws : List (List Nat)) (i : Nat),
      (runWrites f ws i = .ok ws ∧ ∀ j, i ≤ j → j < i + ws.length → f j = true)
      ∨ (∃ k, runWrites f ws i = .error k ∧ f k = false ∧ i ≤ k ∧ k < i + ws.length
          ∧ ∀ j, i ≤ j → j < k → f j = true) := by
  intro ws
  induction ws with
  | nil =>
    intro i
    left
    exact ⟨rfl, fun j h1 h2 => by simp only [List.length_nil, Nat.add_zero] at h2; omega⟩
  | cons w ws ih =>
    intro i
    by_cases hf : f i = true
    · rcases ih (i + 1) with ⟨hok, hall⟩ | ⟨k, herr, hfk, hk1, hk2, hprev⟩
      · left
        constructor
        · simp only [runWrites, if_pos hf, hok, Except.map]
        · intro j h1 h2
          by_cases hj : j = i
          · rw [hj]; exact hf
          · exact hall j (by omega) (by simp only [List.length_cons] at h2 ⊢; omega)
      · right
        refine ⟨k, ?_, hfk, by omega, by simp only [List.length_cons]; omega, ?_⟩
        · simp only [runWrites, if_pos hf, herr, Except.map]
        · intro j h1 h2
          by_cases hj : j = i
          · rw [hj]; exact hf
          · exact hprev j (by omega) h2
    · right
      refine ⟨i, ?_, by simpa using hf, Nat.le_refl i, by simp, ?_⟩
      · simp only [runWrites, if_neg hf]
      · intro j h1 h2
        omega

theorem setFile_same (fs : Fs) (p : String) (v : Option (List Nat)) :
    (setFile fs p v).files p = v := by
  simp [setFile]

theorem setFile_other (fs : Fs) (p : String) (v : Option (List Nat)) {q : String}
    (h : q ≠ p) : (setFile fs p v).files q = fs.files q := by
  simp [setFile, h]
theorem correct_file_trace_spec (o : FsOracles) (fs0 : Fs) (path : String)
    (ba : List BandAid) (cp : String) (hcp : o.canon path = some cp)
    (hne : cp ≠ tmpPath fs0) :
    (∀ σ ∈ (correctFileTrace o fs0 path ba).1.dropLast,
        ∀ q, q ≠ tmpPath fs0 → σ.files q = fs0.files q)
    ∧ ((correctFileTrace o fs0 path ba).2 = false →
        ∀ σ ∈ (correctFileTrace o fs0 path ba).1,
          ∀ q, q ≠ tmpPath fs0 → σ.files q = fs0.files q)
    ∧ ((correctFileTrace o fs0 path ba).2 = true →
        ∀ bs chars, fs0.files cp = some bs → o.decode bs = some chars →
          ∃ pre fin, (correctFileTrace o fs0 path ba).1 = pre ++ [fin]
            ∧ (∀ σ ∈ pre, σ.files cp = fs0.files cp)
            ∧ fin.files cp = some (apply_patches (ba.map Patch.fromBandAid) chars)
            ∧ fin.files (tmpPath fs0) = none) := by
  have hmem2 : ∀ (σ a b : Fs), σ ∈ ([a, b] : List Fs) → σ = a ∨ σ = b := by
    intro σ a b h
    simpa using h
  have hmem3 : ∀ (σ a b c : Fs), σ ∈ ([a, b, c] : List Fs) → σ = a ∨ σ = b ∨ σ = c := by
    intro σ a b c h
    simpa using h
  unfold correctFileTrace
  rw [hcp]
  dsimp only
  rcases hfc : fs0.files cp with _ | content
  · refine ⟨by simp, by simp, ?_⟩
    intro _ bs chars hbs
    exact absurd hbs (by simp)
  · dsimp only
    by_cases hop : o.openTmpOk = true
    · rw [if_pos hop]
      rcases hdec : o.decode content with _ | chars0
      · dsimp only
        refine ⟨?_, ?_, by simp⟩
        · intro σ hσ q hq
          have : σ = fs0 := by simpa using hσ
          rw [this]
        · intro _ σ hσ q hq
          rcases hmem2 σ _ _ hσ with rfl | rfl
          · rfl
          · exact setFile_other fs0 _ _ hq
      · dsimp only
        rcases hrw : runWrites o.sinkOk
            (List.map (renderW (strEnc chars0))
              (applyPatchesW (List.map Patch.fromBandAid ba) chars0)) 0 with i | chunks
        · dsimp only
          refine ⟨?_, ?_, by simp⟩
          · intro σ hσ q hq
            rcases hmem2 σ _ _ (by simpa using hσ) with rfl | rfl
            · rfl
            · exact setFile_other fs0 _ _ hq
          · intro _ σ hσ q hq
            rcases hmem3 σ _ _ _ hσ with rfl | rfl | rfl
            · rfl
            · exact setFile_other fs0 _ _ hq
            · rw [setFile_other _ _ _ hq, setFile_other fs0 _ _ hq]
        · dsimp only
          by_cases hfl : o.flushOk = true
          · rw [if_pos hfl]
            by_cases hrn : o.renameOk = true
            · rw [if_pos hrn]
              refine ⟨?_, by simp, ?_⟩
              · intro σ hσ q hq
                rcases hmem3 σ _ _ _ (by simpa using hσ) with rfl | rfl | rfl
                · rfl
                · exact setFile_other fs0 _ _ hq
                · rw [setFile_other _ _ _ hq, setFile_other fs0 _ _ hq]
              · intro _ bs chars hbs hdc
                have hbsc : content = bs := Option.some.inj hbs
                subst hbsc
                rw [hdec] at hdc
                have hch : chars0 = chars := Option.some.inj hdc
                subst hch
                refine ⟨[fs0, setFile fs0 (tmpPath fs0) (some []),
                  setFile (setFile fs0 (tmpPath fs0) (some []))
                    (tmpPath fs0) (some chunks.flatten)], _, rfl, ?_, ?_, ?_⟩
                · intro σ hσ
                  rcases hmem3 σ _ _ _ hσ with h | h | h
                  · rw [h]; exact hfc
                  · rw [h, setFile_other fs0 _ _ hne]; exact hfc
                  · rw [h, setFile_other _ _ _ hne, setFile_other fs0 _ _ hne]
                    exact hfc
                · rw [setFile_other _ _ _ hne, setFile_same]
                  have hch2 : chunks = (applyPatchesW (ba.map Patch.fromBandAid) chars0).map
                      (renderW (strEnc chars0)) := by
                    rcases runWrites_spec o.sinkOk
                        ((applyPatchesW (ba.map Patch.fromBandAid) chars0).map
                          (renderW (strEnc chars0))) 0 with ⟨hok, _⟩ | ⟨k, herr, _⟩
                    · rw [hrw] at hok
                      exact Except.ok.inj hok
                    · rw [hrw] at herr
                      exact absurd herr (by simp)
                  rw [setFile_same, hch2]
                  rfl
                · exact setFile_same _ _ _
            · rw [if_neg hrn]
              refine ⟨?_, ?_, by simp⟩
              · intro σ hσ q hq
                rcases hmem2 σ _ _ (by simpa using hσ) with rfl | rfl
                · rfl
                · exact setFile_other fs0 _ _ hq
              · intro _ σ hσ q hq
                rcases hmem3 σ _ _ _ hσ with rfl | rfl | rfl
                · rfl
                · exact setFile_other fs0 _ _ hq
                · rw [setFile_other _ _ _ hq, setFile_other fs0 _ _ hq]
          · rw [if_neg hfl]
            refine ⟨?_, ?_, by simp⟩
            · intro σ hσ q hq
              rcases hmem2 σ _ _ (by simpa using hσ) with rfl | rfl
              · rfl
              · exact setFile_other fs0 _ _ hq
            · intro _ σ hσ q hq
              rcases hmem3 σ _ _ _ hσ with rfl | rfl | rfl
              · rfl
              · exact setFile_other fs0 _ _ hq
              · rw [setFile_other _ _ _ hq, setFile_other fs0 _ _ hq]
    · rw [if_neg hop]
      exact ⟨by simp, by simp, by simp⟩

/-- C1: for every buffer `B` and every single `Replace` patch whose span
`[S, E]` lies within `B` (both endpoints are positions of scalar values
of `B`, on scalar boundaries by construction, with `S ≤ E`),
`apply_patches` writes to the sink exactly the characters of `B` before
`S`, then the replacement content `C`, then the characters of `B`
strictly after `E`; in particular the character at the inclusive end
position `E` is consumed and removed. -/
theorem claim_C1 (B : List Char) (S E : LineColumn) (C : List Char)
    (hS : S ∈ positions B) (hE : E ∈ positions B) (hSE : S ≤ E) :
    apply_patches [.Replace ⟨S, E⟩ C] B
      = strEnc (charsBefore S B) ++ strEnc C ++ strEnc (charsAfter E B) :=
  single_replace_spec B S E C hS hE hSE

/-- Witness for C1: replacing the span from column 1 to column 2 of
`"T🐠🐠U"` (the two fish) by `"Y"`. -/
theorem claim_C1_witness :
    ((⟨1, 1⟩ : LineColumn) ∈ positions "T🐠🐠U".data
      ∧ (⟨1, 2⟩ : LineColumn) ∈ positions "T🐠🐠U".data
      ∧ (⟨1, 1⟩ : LineColumn) ≤ ⟨1, 2⟩)
    ∧ apply_patches [.Replace ⟨⟨1, 1⟩, ⟨1, 2⟩⟩ "Y".data] "T🐠🐠U".data
      = strEnc (charsBefore ⟨1, 1⟩ "T🐠🐠U".data) ++ strEnc "Y".data
        ++ strEnc (charsAfter ⟨1, 2⟩ "T🐠🐠U".data) :=
  ⟨⟨by decide, by decide, by decide⟩,
    claim_C1 "T🐠🐠U".data ⟨1, 1⟩ ⟨1, 2⟩ "Y".data (by decide) (by decide) (by decide)⟩

/-- C2: for every buffer `B`, valid position `P` of `B` and content `C`,
applying the single patch `Insert { insert_at: P, content: C }` yields
the characters of `B` before `P`, then `C`, then all characters of `B`
at `P` or later; the second conjunct records that those two groups
together are exactly `B` in original order, so no original character is
consumed. -/
theorem claim_C2 (B : List Char) (P : LineColumn) (C : List Char)
    (hP : P ∈ positions B) :
    apply_patches [.Insert P C] B
      = strEnc (charsBefore P B) ++ strEnc C ++ strEnc (charsAtOrAfter P B)
    ∧ charsBefore P B ++ charsAtOrAfter P B = B := by
  constructor
  · rw [charsBefore_eq, charsAtOrAfter_eq]
    exact apply_single_insert B P C
  · rw [charsBefore_eq, charsAtOrAfter_eq]
    exact takeUntil_append_dropUntil P B home

/-- Witness for C2: inserting `"Q"` before the turtle in `"A🐢C"`. -/
theorem claim_C2_witness :
    (⟨1, 1⟩ : LineColumn) ∈ positions "A🐢C".data
    ∧ (apply_patches [.Insert ⟨1, 1⟩ "Q".data] "A🐢C".data
        = strEnc (charsBefore ⟨1, 1⟩ "A🐢C".data) ++ strEnc "Q".data
          ++ strEnc (charsAtOrAfter ⟨1, 1⟩ "A🐢C".data)
      ∧ charsBefore ⟨1, 1⟩ "A🐢C".data ++ charsAtOrAfter ⟨1, 1⟩ "A🐢C".data
        = "A🐢C".data) :=
  ⟨by decide, claim_C2 "A🐢C".data ⟨1, 1⟩ "Q".data (by decide)⟩

/-- C3: two or more `Insert` patches at the same position are emitted in
exactly the order they appear in the patch sequence, with no reordering,
coalescing, or overwriting: the output is the characters before `P`,
then every content in sequence order, then the rest of the buffer. -/
theorem claim_C3 (B : List Char) (P : LineColumn) (cs : List (List Char))
    (hP : P ∈ positions B) (hlen : 2 ≤ cs.length) :
    apply_patches (cs.map (Patch.Insert P)) B
      = strEnc (charsBefore P B) ++ (cs.map strEnc).flatten
        ++ strEnc (charsAtOrAfter P B) :=
  colocated_inserts_spec B P cs hP hlen

/-- Witness for C3: inserting `"X"` then `"Y"` at the turtle of
`"A🐢C"`. -/
theorem claim_C3_witness :
    ((⟨1, 1⟩ : LineColumn) ∈ positions "A🐢C".data
      ∧ 2 ≤ ([("X".data : List Char), "Y".data]).length)
    ∧ apply_patches ([("X".data : List Char), "Y".data].map (Patch.Insert ⟨1, 1⟩))
        "A🐢C".data
      = strEnc (charsBefore ⟨1, 1⟩ "A🐢C".data)
        ++ ([("X".data : List Char), "Y".data].map strEnc).flatten
        ++ strEnc (charsAtOrAfter ⟨1, 1⟩ "A🐢C".data) :=
  ⟨⟨by decide, by decide⟩,
    claim_C3 "A🐢C".data ⟨1, 1⟩ [("X".data : List Char), "Y".data]
      (by decide) (by decide)⟩

/-- C4: (a) for every patch sequence, sorted or not, every carbon-copied
byte range `W.cc lo hi` that `apply_patches` slices out of the buffer
starts and ends on scalar boundaries (a skipped `Replace` range is the
gap between the end of one emitted range and the start of the next, so
its endpoints are these same boundary offsets); hence a scalar value's
encoded bytes are never split. (b) A `Replace` spanning exactly one
multi-byte scalar (span `[S, S]` addressing a scalar of UTF-8 length
greater than one) removes that whole scalar only. -/
theorem claim_C4 :
    (∀ (ps : List Patch) (B : List Char) (lo hi : Nat),
        W.cc lo hi ∈ applyPatchesW ps B → Boundary B lo ∧ Boundary B hi)
    ∧ (∀ (B : List Char) (S : LineColumn) (C : List Char) (d : Char) (tl : List Char),
        S ∈ positions B → dropUntil S B home = d :: tl → 1 < utf8Len d →
        apply_patches [.Replace ⟨S, S⟩ C] B
          = strEnc (takeUntil S B home) ++ strEnc C ++ strEnc tl) := by
  constructor
  · intro ps B lo hi hmem
    exact applyPatchesW_cc_boundary ps B hmem
  · intro B S C d tl hS hdtl hmb
    have h := single_replace_spec B S S C hS hS (lc_le_refl S)
    rw [charsBefore_eq] at h
    unfold positions at hS
    obtain ⟨hdu, hpos⟩ := mem_positions_split B 0 0 home hS
    rw [charsAfter_eq hdtl hpos] at h
    exact h

/-- Witness for C4: the first carbon-copy range of a replacement in
`"T🐠🐠U"` has boundary endpoints, and replacing the single 4-byte fish
at column 1 by `"Y"` removes exactly that scalar. -/
theorem claim_C4_witness :
    (Boundary "T🐠🐠U".data 0 ∧ Boundary "T🐠🐠U".data 1)
    ∧ ((⟨1, 1⟩ : LineColumn) ∈ positions "T🐠🐠U".data
      ∧ dropUntil ⟨1, 1⟩ "T🐠🐠U".data home = '🐠' :: "🐠U".data
      ∧ 1 < utf8Len '🐠'
      ∧ apply_patches [.Replace ⟨⟨1, 1⟩, ⟨1, 1⟩⟩ "Y".data] "T🐠🐠U".data
        = strEnc (takeUntil ⟨1, 1⟩ "T🐠🐠U".data home) ++ strEnc "Y".data
          ++ strEnc "🐠U".data) :=
  ⟨claim_C4.1 [.Replace ⟨⟨1, 1⟩, ⟨1, 2⟩⟩ "Y".data] "T🐠🐠U".data 0 1 (by decide),
   by decide, by decide, by decide,
   claim_C4.2 "T🐠🐠U".data ⟨1, 1⟩ "Y".data '🐠' "🐠U".data
     (by decide) (by decide) (by decide)⟩

/-- C5: applying an empty patch sequence writes the buffer to the sink
unchanged, byte-for-byte. -/
theorem claim_C5 (B : List Char) : apply_patches [] B = strEnc B :=
  apply_patches_nil B

/-- C6: the `BandAid` → `Patch` conversion is a total function which
produces an `Insert` at `span.start` when `span.start == span.end` and a
`Replace` over the span otherwise. -/
theorem claim_C6 (b : BandAid) :
    (b.span.start = b.span.stop →
      Patch.fromBandAid b = .Insert b.span.start b.content)
    ∧ (b.span.start ≠ b.span.stop →
      Patch.fromBandAid b = .Replace b.span b.content) := by
  constructor
  · intro h
    unfold Patch.fromBandAid
    rw [if_pos h]
  · intro h
    unfold Patch.fromBandAid
    rw [if_neg h]

/-- Witness for C6: a degenerate span becomes an `Insert`, a proper span
becomes a `Replace`. -/
theorem claim_C6_witness :
    Patch.fromBandAid ⟨⟨⟨1, 2⟩, ⟨1, 2⟩⟩, "ab".data⟩
        = .Insert ⟨1, 2⟩ "ab".data
    ∧ Patch.fromBandAid ⟨⟨⟨1, 2⟩, ⟨1, 4⟩⟩, "cd".data⟩
        = .Replace ⟨⟨1, 2⟩, ⟨1, 4⟩⟩ "cd".data :=
  ⟨(claim_C6 ⟨⟨⟨1, 2⟩, ⟨1, 2⟩⟩, "ab".data⟩).1 (by decide),
   (claim_C6 ⟨⟨⟨1, 2⟩, ⟨1, 4⟩⟩, "cd".data⟩).2 (by decide)⟩

/-- C7: against a fallible sink whose write number `i` succeeds iff
`f i = true`, `apply_patches` either returns `Ok` with the full
corrected stream on the sink, or aborts at the first failing write and
propagates that failure — every write before the failing one succeeded
and nothing after it is attempted; there is no partial-success return
value. -/
theorem claim_C7 (f : Nat → Bool) (ps : List Patch) (B : List Char) :
    (∃ out, applyPatchesSink f ps B = .ok out
      ∧ out.flatten = apply_patches ps B)
    ∨ (∃ i, applyPatchesSink f ps B = .error i ∧ f i = false
        ∧ ∀ j, j < i → f j = true) := by
  rcases runWrites_spec f ((applyPatchesW ps B).map (renderW (strEnc B))) 0 with
    ⟨hok, _⟩ | ⟨k, herr, hfk, _, _, hprev⟩
  · left
    exact ⟨_, hok, rfl⟩
  · right
    exact ⟨k, herr, hfk, fun j hj => hprev j (Nat.zero_le j) hj⟩

/-- C8: `apply_patches` performs no validation of the caller contract:
for every patch sequence — including unsorted ones and overlapping
`Replace` spans — whenever all sink writes succeed it returns `Ok`; a
violated ordering invariant never surfaces as a detected error. -/
theorem claim_C8 (f : Nat → Bool) (ps : List Patch) (B : List Char)
    (hall : ∀ i, f i = true) :
    applyPatchesSink f ps B
      = .ok ((applyPatchesW ps B).map (renderW (strEnc B))) := by
  rcases runWrites_spec f ((applyPatchesW ps B).map (renderW (strEnc B))) 0 with
    ⟨hok, _⟩ | ⟨k, _, hfk, _, _, _⟩
  · exact hok
  · rw [hall k] at hfk
    exact absurd hfk (by simp)

/-- Witness for C8: an unsorted, overlapping pair of `Replace` patches
still yields `Ok` when every sink write succeeds. -/
theorem claim_C8_witness :
    applyPatchesSink (fun _ => true)
      [.Replace ⟨⟨1, 5⟩, ⟨1, 9⟩⟩ "x".data, .Replace ⟨⟨1, 0⟩, ⟨1, 7⟩⟩ "y".data]
      "hello world".data
      = .ok ((applyPatchesW
          [.Replace ⟨⟨1, 5⟩, ⟨1, 9⟩⟩ "x".data, .Replace ⟨⟨1, 0⟩, ⟨1, 7⟩⟩ "y".data]
          "hello world".data).map (renderW (strEnc "hello world".data))) :=
  claim_C8 (fun _ => true)
    [.Replace ⟨⟨1, 5⟩, ⟨1, 9⟩⟩ "x".data, .Replace ⟨⟨1, 0⟩, ⟨1, 7⟩⟩ "y".data]
    "hello world".data (fun _ => rfl)

/-- C9: during materialization, every state before the final one differs
from the initial filesystem only at the fixed-name temporary file
`cwd/".spellcheck.tmp"`; on failure every state, the final one included,
leaves every other path (the original file in particular) unchanged; on
success the trace ends with a single rename step whose resulting state
holds the fully corrected content at the canonical path, every earlier
state still showing the fully original content — an external reader
never observes a partially-written original file. -/
theorem claim_C9 (o : FsOracles) (fs0 : Fs) (path : String) (ba : List BandAid)
    (cp : String) (hcp : o.canon path = some cp) (hne : cp ≠ tmpPath fs0) :
    (∀ σ ∈ (correctFileTrace o fs0 path ba).1.dropLast,
        ∀ q, q ≠ tmpPath fs0 → σ.files q = fs0.files q)
    ∧ ((correctFileTrace o fs0 path ba).2 = false →
        ∀ σ ∈ (correctFileTrace o fs0 path ba).1,
          ∀ q, q ≠ tmpPath fs0 → σ.files q = fs0.files q)
    ∧ ((correctFileTrace o fs0 path ba).2 = true →
        ∀ bs chars, fs0.files cp = some bs → o.decode bs = some chars →
          ∃ pre fin, (correctFileTrace o fs0 path ba).1 = pre ++ [fin]
            ∧ (∀ σ ∈ pre, σ.files cp = fs0.files cp)
            ∧ fin.files cp = some (apply_patches (ba.map Patch.fromBandAid) chars)
            ∧ fin.files (tmpPath fs0) = none) :=
  correct_file_trace_spec o fs0 path ba cp hcp hne

/-- Witness for C9: a concrete successful materialization of the file
`"f"` containing `"ab"` with no edits, in cwd `"d"`. -/
theorem claim_C9_witness :
    (∀ σ ∈ (correctFileTrace wOracles wFs "f" []).1.dropLast,
        ∀ q, q ≠ tmpPath wFs → σ.files q = wFs.files q)
    ∧ ((correctFileTrace wOracles wFs "f" []).2 = false →
        ∀ σ ∈ (correctFileTrace wOracles wFs "f" []).1,
          ∀ q, q ≠ tmpPath wFs → σ.files q = wFs.files q)
    ∧ ((correctFileTrace wOracles wFs "f" []).2 = true →
        ∀ bs chars, wFs.files "f" = some bs → wOracles.decode bs = some chars →
          ∃ pre fin, (correctFileTrace wOracles wFs "f" []).1 = pre ++ [fin]
            ∧ (∀ σ ∈ pre, σ.files "f" = wFs.files "f")
            ∧ fin.files "f"
              = some (apply_patches (([] : List BandAid).map Patch.fromBandAid) chars)
            ∧ fin.files (tmpPath wFs) = none) :=
  claim_C9 wOracles wFs "f" [] "f" rfl (by decide)

/-- C10: `Finish.found_any` returns `true` iff the value is
`MistakeCount n` with `n > 0`; in particular it is `false` for `Abort`
and for `MistakeCount 0`. -/
theorem claim_C10 :
    (∀ f : Finish, f.found_any = true ↔ ∃ n, f = .MistakeCount n ∧ 0 < n)
    ∧ Finish.found_any .Abort = false
    ∧ Finish.found_any (.MistakeCount 0) = false := by
  refine ⟨?_, rfl, rfl⟩
  intro f
  cases f with
  | Abort => simp [Finish.found_any]
  | MistakeCount n =>
    by_cases hn : n > 0
    · simp [Finish.found_any, hn]
    · simp [Finish.found_any, hn]

end Spellcheck
